import Mathlib

/-!
Formal model of the requirementz repository (welbornprod/requirementz).

The definitions below are a shallow embedding of `src/requirementz/tools.py`
(the current module; `src/requirementz.py` is the earlier single-file version
with the same core logic).  Machine-level details that the claims do not
touch (terminal colors, pip/pypi network lookups) are omitted; external
collaborators (the installed-package table, the line grammar of the external
`requirements`/`pkg_resources` libraries) are modelled explicitly where a
claim needs them.
-/

/-! ## Version parsing and comparison (tools.py: OP_FUNCS, compare_versions) -/

/-- Split a character list on a separator character, modelling Python
`str.split(sep)` (always returns at least one piece). -/
def splitOnChar (sep : Char) : List Char → List (List Char)
  | [] => [[]]
  | c :: rest =>
    if c = sep then [] :: splitOnChar sep rest
    else
      match splitOnChar sep rest with
      | [] => [[c]]
      | p :: ps => (c :: p) :: ps

/-- Accumulate the decimal value of a digit string. -/
def digitsValAux (acc : Nat) : List Char → Nat
  | [] => acc
  | c :: rest => digitsValAux (acc * 10 + (c.toNat - 48)) rest

/-- ASCII digit test. -/
def isDigitChar (c : Char) : Bool := 48 ≤ c.toNat && c.toNat ≤ 57

/-- Best-effort numeric value of one dotted-version segment (non-numeric
segments degrade to 0, the leniency the spec asks of the parser). -/
def segNat (seg : List Char) : Nat :=
  if seg ≠ [] && seg.all isDigitChar then digitsValAux 0 seg else 0

/-- Remove insignificant trailing zero segments of a parsed version. -/
def dropTrailingZeros (l : List Nat) : List Nat :=
  (l.reverse.dropWhile (fun n => n == 0)).reverse

/-- Modelled from the spec: `pkg_resources.parse_version`, the external
comparable-key routine used by `OP_FUNCS` (tools.py lines 34-40).  Spec §4.1:
a lenient dotted-numeric scheme where numeric segments compare numerically
(so `1` equals `1.0.0`); any total best-effort ordering suffices. -/
def parse_version (s : String) : List Nat :=
  dropTrailingZeros ((splitOnChar '.' s.data).map segNat)

/-- Strict lexicographic order on parsed version keys. -/
def verLt : List Nat → List Nat → Bool
  | [], [] => false
  | [], _ :: _ => true
  | _ :: _, [] => false
  | a :: as, b :: bs =>
    if a < b then true
    else if a = b then verLt as bs
    else false

/-- The operator table of tools.py lines 34-40: each comparison operator is
mapped to a comparison function over parsed version keys. -/
def OP_FUNCS : List (String × (List Nat → List Nat → Bool)) :=
  [("==", fun p1 p2 => p1 == p2),
   (">=", fun p1 p2 => !verLt p1 p2),
   ("<=", fun p1 p2 => !verLt p2 p1),
   (">", fun p1 p2 => verLt p2 p1),
   ("<", fun p1 p2 => verLt p1 p2)]

/-- Python `dict.get(key, default)` on a small association list; a `none` key
models Python `None` (hashable, absent from `OP_FUNCS`). -/
def dictGet {A : Type} (d : List (String × A)) (key : Option String) (dflt : A) : A :=
  match key with
  | none => dflt
  | some k => ((d.find? (fun p => p.1 == k)).map Prod.snd).getD dflt

/-- tools.py lines 269-285: `RequirementPlus.compare_versions`.  The default
argument of the `.get` call is `OP_FUNCS[">="]`. -/
def compare_versions (ver1 : String) (op : Option String) (ver2 : String) : Bool :=
  let opfunc := dictGet OP_FUNCS op (fun p1 p2 => !verLt p1 p2)
  opfunc (parse_version ver1) (parse_version ver2)

/-! ## RequirementPlus (tools.py lines 218-450)

Only the plain-package shape (`name op1 ver1,op2 ver2`) is modelled: every
claim exercises plain records, and the editable-path / VCS branches never
reach the specs-based logic the claims are about. -/

/-- One specifier: a (comparison operator, version string) pair. -/
abbrev Spec := String × String

/-- A parsed requirement record: tools.py `RequirementPlus` (plain shape). -/
structure RequirementPlus where
  name : String
  specs : List Spec
deriving Repr, DecidableEq

/-- Python `str.lower()` for package names (ASCII case folding). -/
def lowerStr (s : String) : String := String.mk (s.data.map Char.toLower)

/-- tools.py lines 231-235: `RequirementPlus.__eq__` — records are equal iff
`set(self.specs) == set(other.specs)` (set equality, mutual membership). -/
def reqEq (a b : RequirementPlus) : Bool :=
  a.specs.all (fun p => p ∈ b.specs) && b.specs.all (fun p => p ∈ a.specs)

/-- The equality relation the SPEC's §3 invariant describes (for comparison
with `reqEq`): names match case-insensitively AND the spec sets share at
least one identical pair. -/
def specClaimEq (a b : RequirementPlus) : Bool :=
  lowerStr a.name == lowerStr b.name && a.specs.any (fun p => p ∈ b.specs)

/-! ## RequirementPlus.satisfied (tools.py lines 329-357) -/

/-- The `against` argument of `satisfied`: a bare version string or another
requirement record. -/
inductive Against where
  | str : String → Against
  | req : RequirementPlus → Against
deriving Repr, DecidableEq

/-- tools.py lines 342-345: the (operator, version) pairs extracted from the
`against` value — a bare string becomes the single pair `("", s)`. -/
def againstSpecs : Against → List Spec
  | .str s => [("", s)]
  | .req r => r.specs

/-- tools.py line 339: `against` defaults to the installed-version record
(the external installed-package collaborator, passed explicitly here). -/
def resolveAgainst (against : Option Against) (installed : Option RequirementPlus) :
    Option Against :=
  match against with
  | none => installed.map Against.req
  | some a => some a

/-- tools.py lines 329-357: `RequirementPlus.satisfied`.  `installed` stands
for `self.installed_version()` (external collaborator). -/
def satisfied (r : RequirementPlus) (against : Option Against)
    (installed : Option RequirementPlus) : Bool :=
  match resolveAgainst against installed with
  | none => false
  | some a =>
    (againstSpecs a).any (fun p =>
      r.specs.any (fun q => compare_versions p.2 (some q.1) q.2))

/-! ## StatusLine classification (tools.py lines 664-701) -/

/-- The staleness marker of one status line: `errM` is the red `!` (error),
`exactM` the blank marker (ok, exact literal match), `looseM` the yellow `-`
(ok, satisfied loosely). -/
inductive Marker where
  | errM
  | exactM
  | looseM
deriving Repr, DecidableEq

/-- Python `op.endswith('=')` on an operator string. -/
def endsWithEq (op : String) : Bool := op.data.getLast? == some '='

/-- tools.py lines 674-676: the version literals of specs whose operator ends
with `=` (`==`, `>=`, `<=`). -/
def includedvers (specs : List Spec) : List String :=
  (specs.filter (fun p => endsWithEq p.1)).map Prod.snd

/-- tools.py lines 310-312: the record produced by `installed_version()` for
an installed version string `v` — specs are exactly `[("==", v)]`. -/
def installedRecord (r : RequirementPlus) (v : String) : RequirementPlus :=
  ⟨r.name, [("==", v)]⟩

/-- tools.py lines 684-701: the marker chosen by `StatusLine.__init__`, as a
function of the requirement and the installed version string (`none` when the
package is not installed).  `installverstr` is `installedver.specs[0][1]`. -/
def statusMarker (r : RequirementPlus) (installed : Option String) : Marker :=
  match installed with
  | none => .errM
  | some v =>
    if satisfied r none (some (installedRecord r v)) then
      if v ∈ includedvers r.specs then .exactM else .looseM
    else .errM

/-! ## Line parsing (modelled from the spec)

`RequirementPlus.parse` delegates to the external `requirements` /
`pkg_resources` libraries, which are not part of this repository.  Modelled
from the spec: §4.2 / §6 give the plain-line grammar
`name op1 ver1, op2 ver2` (extras and the editable / VCS shapes are not
exercised by any claim and parse to failure here); blank lines and comment
lines are not valid requirement lines. -/

/-- Whitespace as stripped by Python `str.strip()`. -/
def isSpaceChar (c : Char) : Bool := c = ' ' || c = '\t' || c = '\n' || c = '\r'

/-- Python `str.strip()` on a character list. -/
def trimChars (l : List Char) : List Char :=
  ((l.dropWhile isSpaceChar).reverse.dropWhile isSpaceChar).reverse

/-- Characters an operator is made of. -/
def isOpChar (c : Char) : Bool := c = '<' || c = '>' || c = '='

/-- Characters that terminate the package name. -/
def nameStopChar (c : Char) : Bool := isSpaceChar c || isOpChar c || c = ',' || c = '['

/-- The five comparison operators of the requirements grammar. -/
def VALID_OPS : List String := ["==", ">=", "<=", ">", "<"]

/-- Parse one comma-separated specifier piece `op ver`. -/
def parseSpecPiece (piece : List Char) : Option Spec :=
  let p := trimChars piece
  let op := p.takeWhile isOpChar
  let ver := trimChars (p.dropWhile isOpChar)
  if VALID_OPS.contains (String.mk op) && ver ≠ [] then
    some (String.mk op, String.mk ver)
  else none

/-- Parse every specifier piece, failing if any piece is malformed. -/
def parseSpecs : List (List Char) → Option (List Spec)
  | [] => some []
  | p :: ps =>
    match parseSpecPiece p, parseSpecs ps with
    | some s, some ss => some (s :: ss)
    | _, _ => none

/-- Modelled from the spec: parse one plain requirement line into a record
(name up to the first space / operator / comma / bracket, then the
comma-separated specifier list).  `none` models the `ValueError` the external
parser raises on blank, comment, or malformed lines. -/
def parseChars (l : List Char) : Option RequirementPlus :=
  let t := trimChars l
  if t.head? = some '#' then none
  else
    let nm := t.takeWhile (fun ch => !nameStopChar ch)
    let rest := trimChars (t.dropWhile (fun ch => !nameStopChar ch))
    if nm = [] then none
    else if rest = [] then some ⟨String.mk nm, []⟩
    else (parseSpecs (splitOnChar ',' rest)).map (fun ss => ⟨String.mk nm, ss⟩)

/-- `RequirementPlus.parse` on one line. -/
def parseLine (s : String) : Option RequirementPlus := parseChars s.data

/-- Join character lists with a separator (Python `sep.join`). -/
def interc (sep : List Char) : List (List Char) → List Char
  | [] => []
  | [x] => x
  | x :: xs => x ++ sep ++ interc sep xs

/-- One rendered specifier `op ver` (tools.py lines 372-375). -/
def specPieceChars (p : Spec) : List Char := p.1.data ++ ' ' :: p.2.data

/-- tools.py lines 359-375: `spec_string` without color — `op ver` pieces
joined by commas. -/
def spec_string (r : RequirementPlus) : List Char :=
  interc [','] (r.specs.map specPieceChars)

/-- tools.py lines 263-267 and 430-444: `str(req)` for a plain record is
`name` + space + spec string. -/
def renderChars (r : RequirementPlus) : List Char := r.name.data ++ ' ' :: spec_string r

/-- `str(req)` as a string. -/
def render (r : RequirementPlus) : String := String.mk (renderChars r)

/-! ## Requirementz collection (tools.py lines 453-592) -/

/-- Strict lexicographic code-point order on character lists — Python's `<`
on strings. -/
def charListLt : List Char → List Char → Bool
  | [], [] => false
  | [], _ :: _ => true
  | _ :: _, [] => false
  | a :: as, b :: bs =>
    if a < b then true
    else if a = b then charListLt as bs
    else false

/-- Python `a <= b` on strings (case-sensitive ordinal comparison). -/
def strLe (a b : String) : Bool := !charListLt b.data a.data

instance : DecidableRel (fun a b : String => strLe a b = true) :=
  fun a b => inferInstanceAs (Decidable (strLe a b = true))

instance : DecidableRel (fun a b : RequirementPlus => strLe a.name b.name = true) :=
  fun a b => inferInstanceAs (Decidable (strLe a.name b.name = true))

/-- Python `sorted` on strings: a stable sort by the ordinal order
(insertion sort is stable, and the order is total, so this is the unique
stable result Python produces). -/
def sortStrings (lines : List String) : List String :=
  List.insertionSort (fun a b => strLe a b = true) lines

/-- Python `sorted(self, key=lambda r: r.name)` — stable sort by the
case-sensitive ordinal order on the name string. -/
def sortByName (reqs : List RequirementPlus) : List RequirementPlus :=
  List.insertionSort (fun a b => strLe a.name b.name = true) reqs

/-- Parse a list of lines in order, failing the whole operation if any line
fails (the generator in `from_lines` propagates the first `ValueError`). -/
def parseAll : List String → Option (List RequirementPlus)
  | [] => some []
  | l :: ls =>
    match parseLine l with
    | none => none
    | some r =>
      match parseAll ls with
      | none => none
      | some rs => some (r :: rs)

/-- tools.py lines 524-528: `Requirementz.from_lines` — note the `sorted(lines)`
around the input. -/
def from_lines (lines : List String) : Option (List RequirementPlus) :=
  parseAll (sortStrings lines)

/-- Python `file.readlines()`: split a string into lines, each keeping its
trailing newline (a final chunk without a newline is kept too). -/
def readlinesList : List Char → List (List Char)
  | [] => []
  | c :: rest =>
    if c = '\n' then ['\n'] :: readlinesList rest
    else
      match readlinesList rest with
      | [] => [[c]]
      | l :: ls => (c :: l) :: ls

/-- `readlines` on a string. -/
def readlines (s : String) : List String := (readlinesList s.data).map String.mk

/-- tools.py lines 514-522: `Requirementz.from_file`, applied to the file's
content (file I/O itself is the external collaborator). -/
def from_file (content : String) : Option (List RequirementPlus) :=
  from_lines (readlines content)

/-- tools.py lines 584-592: `Requirementz.write` — the content written through
the SafeWriter: records sorted by name, one per line, a trailing newline. -/
def writeContent (reqs : List RequirementPlus) : String :=
  String.mk (interc ['\n'] ((sortByName reqs).map renderChars) ++ ['\n'])

/-- Result of `Requirementz.add_line`: `Added` is the `True` return, `Replaced`
the `False` return, `DuplicateErr` the `ValueError('Already a requirement')`,
`ParseErr` the `ValueError('Invalid requirement spec.')`. -/
inductive AddResult where
  | Added
  | Replaced
  | DuplicateErr
  | ParseErr
deriving Repr, DecidableEq

/-- Case-insensitive name comparison `a.lower() == b.lower()`. -/
def nameMatches (a b : String) : Bool := lowerStr a == lowerStr b

/-- tools.py lines 473-488, the scan loop of `add_line`: the FIRST record
whose name matches case-insensitively decides — duplicate per `__eq__`
raises, a different record is replaced in place; when no name matches the
new record is appended. -/
def add_line_core (req : RequirementPlus) :
    List RequirementPlus → AddResult × List RequirementPlus
  | [] => (.Added, [req])
  | er :: rest =>
    if nameMatches req.name er.name then
      if reqEq req er then (.DuplicateErr, er :: rest)
      else (.Replaced, req :: rest)
    else
      let res := add_line_core req rest
      (res.1, er :: res.2)

/-- tools.py lines 461-488: `Requirementz.add_line`. -/
def add_line (reqs : List RequirementPlus) (line : String) :
    AddResult × List RequirementPlus :=
  match parseLine line with
  | none => (.ParseErr, reqs)
  | some req => add_line_core req reqs

/-- tools.py lines 559-561: `Requirementz.names`. -/
def names (reqs : List RequirementPlus) : List String :=
  reqs.map RequirementPlus.name

/-- tools.py lines 530-537: `Requirementz.get_byname` — first record with the
exact given name. -/
def get_byname (reqs : List RequirementPlus) (nm : String) : Option RequirementPlus :=
  reqs.find? (fun r => r.name == nm)

/-- Python dict assignment `d[k] = v` on an insertion-ordered association
list: overwrite the existing entry or append a new one. -/
def dictSet (d : List (String × Nat)) (k : String) (v : Nat) : List (String × Nat) :=
  if d.any (fun p => p.1 == k) then
    d.map (fun p => if p.1 == k then (k, v) else p)
  else d ++ [(k, v)]

/-- The loop of tools.py lines 501-512: for each name (in list order), skip
it when it occurs exactly once, otherwise store `count - 1` under the
requirement found by `get_byname(name)`.  The dict key is that first record
with the exact name; distinct names always give distinct keys (`__hash__` is
`hash(str(self))` and `str` starts with the name), and equal names give the
identical record, so the map is keyed here by the name itself. -/
def duplicatesAux (allNames : List String) :
    List String → List (String × Nat) → List (String × Nat)
  | [], d => d
  | n :: rest, d =>
    if allNames.count n = 1 then duplicatesAux allNames rest d
    else duplicatesAux allNames rest (dictSet d n (allNames.count n - 1))

/-- tools.py lines 501-512: `Requirementz.duplicates`. -/
def duplicates (reqs : List RequirementPlus) : List (String × Nat) :=
  duplicatesAux (names reqs) (names reqs) []

/-! ## SafeWriter (tools.py lines 595-661)

The filesystem slice the scoped writer touches: the target file and its
sibling `<name>.bak`, each `none` when absent. -/

/-- The two files `SafeWriter` touches. -/
structure FS where
  target : Option String
  bak : Option String
deriving Repr, DecidableEq

/-- One full pass through the `with SafeWriter(...)` scope (tools.py lines
604-661): on entry `file_backup` copies an existing target to the backup and
the target is opened truncated; the body writes `content`, or only
`halfWritten` when `fails` is true (an error then propagates); on exit the
backup is removed only when no error occurred and a backup was made. -/
def safeWrite (fs : FS) (content : String) (fails : Bool) (halfWritten : String) : FS :=
  let backedUp := fs.target.isSome
  let bakAfterEnter : Option String :=
    match fs.target with
    | some c => some c
    | none => fs.bak
  let written := if fails then halfWritten else content
  if fails then ⟨some written, bakAfterEnter⟩
  else if backedUp then ⟨some written, none⟩
  else ⟨some written, bakAfterEnter⟩

/-- Characters allowed in a well-formed package name: no whitespace,
operator characters, comma, bracket, or hash. -/
def goodNameChar (c : Char) : Bool :=
  !(isSpaceChar c || isOpChar c || c = ',' || c = '[' || c = '#')

/-- Characters allowed in a well-formed version literal: no whitespace,
operator characters, or comma. -/
def goodVerChar (c : Char) : Bool := !(isSpaceChar c || isOpChar c || c = ',')

/-- A well-formed specifier: a known operator and a nonempty plain version
literal. -/
def wfSpec (p : Spec) : Bool :=
  VALID_OPS.contains p.1 && !p.2.data.isEmpty && p.2.data.all goodVerChar

/-- A well-formed plain record, as produced by parsing a valid plain
requirement line: nonempty plain name, well-formed specifiers. -/
def WellFormed (r : RequirementPlus) : Bool :=
  !r.name.data.isEmpty && r.name.data.all goodNameChar && r.specs.all wfSpec

/-! ## Theorems -/

theorem verLt_irrefl (l : List Nat) : verLt l l = false := by
  induction l with
  | nil => rfl
  | cons a as ih => simp [verLt, ih]

/-- C9: for every version string `v`, `compare_versions v op v` is true for
`==`, `>=`, `<=` and false for `>`, `<`; and for every operator outside the
five known ones (including Python `None`) the comparison behaves exactly as
`>=`. -/
theorem compare_versions_refl_and_fallback :
    (∀ v : String,
      compare_versions v (some "==") v = true ∧
      compare_versions v (some ">=") v = true ∧
      compare_versions v (some "<=") v = true ∧
      compare_versions v (some ">") v = false ∧
      compare_versions v (some "<") v = false) ∧
    (∀ op : Option String,
      op ∉ ([some "==", some ">=", some "<=", some ">", some "<"] : List (Option String)) →
      ∀ v1 v2 : String, compare_versions v1 op v2 = compare_versions v1 (some ">=") v2) := by
  constructor
  · intro v
    refine ⟨?_, ?_, ?_, ?_, ?_⟩ <;>
      simp [compare_versions, dictGet, OP_FUNCS, List.find?, verLt_irrefl]
  · intro op h v1 v2
    match op with
    | none => rfl
    | some k =>
      simp only [List.mem_cons, List.not_mem_nil, or_false, not_or] at h
      obtain ⟨h1, h2, h3, h4, h5⟩ := h
      have e1 : ("==" == k) = false := by
        simp only [beq_eq_false_iff_ne]; exact fun e => h1 (by rw [e])
      have e2 : (">=" == k) = false := by
        simp only [beq_eq_false_iff_ne]; exact fun e => h2 (by rw [e])
      have e3 : ("<=" == k) = false := by
        simp only [beq_eq_false_iff_ne]; exact fun e => h3 (by rw [e])
      have e4 : ((">" : String) == k) = false := by
        simp only [beq_eq_false_iff_ne]; exact fun e => h4 (by rw [e])
      have e5 : (("<" : String) == k) = false := by
        simp only [beq_eq_false_iff_ne]; exact fun e => h5 (by rw [e])
      simp [compare_versions, dictGet, OP_FUNCS, List.find?, e1, e2, e3, e4, e5]

/-- Witness for C9 at concrete inputs. -/
theorem compare_versions_refl_and_fallback_witness :
    compare_versions "1.0.0" (some "==") "1.0.0" = true ∧
    compare_versions "2" (some "WAT") "1" = compare_versions "2" (some ">=") "1" ∧
    compare_versions "1" none "1" = compare_versions "1" (some ">=") "1" := by
  refine ⟨(compare_versions_refl_and_fallback.1 "1.0.0").1, ?_, ?_⟩
  · exact compare_versions_refl_and_fallback.2 (some "WAT") (by decide) "2" "1"
  · exact compare_versions_refl_and_fallback.2 none (by decide) "1" "1"

/-- C1 counterexample: the claimed equality (case-insensitive name match plus
overlapping spec sets) disagrees with the code's `__eq__` in both directions:
records named `foo` and `bar` with identical spec lists are equal per the
code but not per the claim, and two `docopt` records whose spec sets overlap
without being equal are equal per the claim but not per the code. -/
theorem reqEq_ne_claimed_equality :
    (reqEq ⟨"foo", [(">=", "1.0")]⟩ ⟨"bar", [(">=", "1.0")]⟩ = true ∧
      specClaimEq ⟨"foo", [(">=", "1.0")]⟩ ⟨"bar", [(">=", "1.0")]⟩ = false) ∧
    (specClaimEq ⟨"docopt", [(">=", "1.0"), ("<=", "2.0")]⟩
        ⟨"docopt", [(">=", "1.0")]⟩ = true ∧
      reqEq ⟨"docopt", [(">=", "1.0"), ("<=", "2.0")]⟩
        ⟨"docopt", [(">=", "1.0")]⟩ = false) := by
  refine ⟨⟨?_, ?_⟩, ?_, ?_⟩ <;> decide

/-- C1 amended: per the code, two records are equal iff their spec sets are
equal as sets (every pair of one occurs in the other); names play no part. -/
theorem reqEq_iff_spec_set_equality :
    ∀ r1 r2 : RequirementPlus,
      reqEq r1 r2 = true ↔ (∀ p : Spec, p ∈ r1.specs ↔ p ∈ r2.specs) := by
  intro r1 r2
  simp only [reqEq, Bool.and_eq_true, List.all_eq_true, decide_eq_true_eq]
  constructor
  · rintro ⟨h1, h2⟩ p
    exact ⟨fun hp => h1 p hp, fun hp => h2 p hp⟩
  · intro h
    exact ⟨fun p hp => (h p).mp hp, fun p hp => (h p).mpr hp⟩

/-- C4: `satisfied` returns false when there is nothing to compare against
(`against` null and no installed version); otherwise it is true iff SOME
(operator, version) pair of the record's specs is satisfied by SOME version
extracted from the resolved `against` value (union semantics on both sides). -/
theorem satisfied_union_semantics :
    ∀ (r : RequirementPlus) (against : Option Against)
      (installed : Option RequirementPlus),
      (against = none → installed = none → satisfied r against installed = false) ∧
      (∀ a : Against, resolveAgainst against installed = some a →
        (satisfied r against installed = true ↔
          ∃ p ∈ againstSpecs a, ∃ q ∈ r.specs,
            compare_versions p.2 (some q.1) q.2 = true)) := by
  intro r against installed
  constructor
  · intro ha hi
    subst ha; subst hi
    rfl
  · intro a ha
    simp only [satisfied, ha, List.any_eq_true]

/-- Witness for C4: a requirement with specs `>= 2.0` or `<= 0.5` is
satisfied against the version string `0.4` (the second spec matches), and a
requirement on an uninstalled package with no `against` is unsatisfied. -/
theorem satisfied_union_semantics_witness :
    satisfied ⟨"pkg", [(">=", "2.0"), ("<=", "0.5")]⟩ (some (.str "0.4")) none = true ∧
    satisfied ⟨"pkg", [(">=", "2.0")]⟩ none none = false := by
  constructor
  · have h := (satisfied_union_semantics ⟨"pkg", [(">=", "2.0"), ("<=", "0.5")]⟩
      (some (.str "0.4")) none).2 (.str "0.4") rfl
    refine h.mpr ⟨("", "0.4"), by decide, ("<=", "0.5"), by decide, by decide⟩
  · exact (satisfied_union_semantics ⟨"pkg", [(">=", "2.0")]⟩ none none).1 rfl rfl

/-- C10 counterexample: for the requirement `pkg > 1.0,<= 3.0` with installed
version `1.0`, the requirement is satisfied and the installed string equals
the spec literal `1.0` verbatim, yet the code marks it loose (`-`), because
only literals of operators ending in `=` count for the exact match. -/
theorem statusMarker_verbatim_claim_fails :
    satisfied ⟨"pkg", [(">", "1.0"), ("<=", "3.0")]⟩ none
        (some (installedRecord ⟨"pkg", [(">", "1.0"), ("<=", "3.0")]⟩ "1.0")) = true ∧
    "1.0" ∈ ([(">", "1.0"), ("<=", "3.0")] : List Spec).map Prod.snd ∧
    statusMarker ⟨"pkg", [(">", "1.0"), ("<=", "3.0")]⟩ (some "1.0") = .looseM := by
  refine ⟨?_, by decide, ?_⟩ <;> decide

/-- C10 amended: for an installed, satisfied requirement the status is exact
(ok, no marker) iff the installed version string equals, verbatim, one of the
version literals of the specs whose OPERATOR ENDS WITH `=`; it is loose (ok,
`-` marker) iff satisfied without such a literal match. -/
theorem statusMarker_exact_iff_included_literal :
    ∀ (r : RequirementPlus) (v : String),
      (statusMarker r (some v) = .exactM ↔
        satisfied r none (some (installedRecord r v)) = true ∧
          v ∈ includedvers r.specs) ∧
      (statusMarker r (some v) = .looseM ↔
        satisfied r none (some (installedRecord r v)) = true ∧
          v ∉ includedvers r.specs) := by
  intro r v
  simp only [statusMarker]
  by_cases hs : satisfied r none (some (installedRecord r v)) = true
  · by_cases hv : v ∈ includedvers r.specs <;> simp [hs, hv]
  · simp only [Bool.not_eq_true] at hs
    simp [hs]

theorem add_line_core_no_match (req : RequirementPlus) :
    ∀ reqs : List RequirementPlus,
      (∀ x ∈ reqs, nameMatches req.name x.name = false) →
      add_line_core req reqs = (.Added, reqs ++ [req]) := by
  intro reqs h
  induction reqs with
  | nil => rfl
  | cons er rest ih =>
    have her := h er (List.mem_cons_self er rest)
    have hrest := ih (fun x hx => h x (List.mem_cons_of_mem er hx))
    simp [add_line_core, her, hrest]

theorem add_line_core_first_match (req : RequirementPlus) :
    ∀ (pre : List RequirementPlus) (er : RequirementPlus) (rest : List RequirementPlus),
      (∀ x ∈ pre, nameMatches req.name x.name = false) →
      nameMatches req.name er.name = true →
      add_line_core req (pre ++ er :: rest) =
        if reqEq req er then (.DuplicateErr, pre ++ er :: rest)
        else (.Replaced, pre ++ req :: rest) := by
  intro pre
  induction pre with
  | nil =>
    intro er rest _ her
    by_cases he : reqEq req er <;> simp [add_line_core, her, he]
  | cons x pre' ih =>
    intro er rest hpre her
    have hx := hpre x (List.mem_cons_self x pre')
    have h' := ih er rest (fun y hy => hpre y (List.mem_cons_of_mem x hy)) her
    by_cases he : reqEq req er <;>
      simp [add_line_core, hx, h', he]

/-- C2: `add_line` with a valid line whose record's name matches an existing
record case-insensitively (first such record) but is not `__eq__`-equal to it
replaces that record in place at the same positional slot and yields
`Replaced` (length unchanged); with no matching name the record is appended
and `Added` is returned.  In particular, on the collection built from
`["docopt >= 0.6.2", "requirements-parser >= 0.1.0"]`, adding
`"docopt >= 0.6.1"` yields `Replaced` with the docopt record carrying spec
`(">=", "0.6.1")` and length 2, and adding `"six >= 0.0.1"` yields `Added`
with length 3. -/
theorem add_line_added_replaced :
    (∀ (line : String) (req : RequirementPlus)
      (pre : List RequirementPlus) (er : RequirementPlus) (rest : List RequirementPlus),
      parseLine line = some req →
      (∀ x ∈ pre, nameMatches req.name x.name = false) →
      nameMatches req.name er.name = true →
      reqEq req er = false →
      add_line (pre ++ er :: rest) line = (.Replaced, pre ++ req :: rest) ∧
        (pre ++ req :: rest).length = (pre ++ er :: rest).length) ∧
    (∀ (line : String) (req : RequirementPlus) (reqs : List RequirementPlus),
      parseLine line = some req →
      (∀ x ∈ reqs, nameMatches req.name x.name = false) →
      add_line reqs line = (.Added, reqs ++ [req])) ∧
    (from_lines ["docopt >= 0.6.2", "requirements-parser >= 0.1.0"] =
        some [⟨"docopt", [(">=", "0.6.2")]⟩, ⟨"requirements-parser", [(">=", "0.1.0")]⟩] ∧
      add_line [⟨"docopt", [(">=", "0.6.2")]⟩, ⟨"requirements-parser", [(">=", "0.1.0")]⟩]
          "docopt >= 0.6.1" =
        (.Replaced,
          [⟨"docopt", [(">=", "0.6.1")]⟩, ⟨"requirements-parser", [(">=", "0.1.0")]⟩]) ∧
      add_line [⟨"docopt", [(">=", "0.6.2")]⟩, ⟨"requirements-parser", [(">=", "0.1.0")]⟩]
          "six >= 0.0.1" =
        (.Added,
          [⟨"docopt", [(">=", "0.6.2")]⟩, ⟨"requirements-parser", [(">=", "0.1.0")]⟩,
            ⟨"six", [(">=", "0.0.1")]⟩])) := by
  refine ⟨?_, ?_, by decide, by decide, by decide⟩
  · intro line req pre er rest hp hpre her hne
    have h := add_line_core_first_match req pre er rest hpre her
    rw [hne] at h
    simp only [Bool.false_eq_true, if_false] at h
    refine ⟨?_, by simp⟩
    simp [add_line, hp, h]
  · intro line req reqs hp h
    simp [add_line, hp, add_line_core_no_match req reqs h]

/-- Witness for C2 at a concrete collection. -/
theorem add_line_added_replaced_witness :
    add_line [⟨"DOCOPT", [(">=", "0.6.2")]⟩] "docopt >= 0.6.1" =
      (.Replaced, [⟨"docopt", [(">=", "0.6.1")]⟩]) ∧
    add_line [⟨"docopt", [(">=", "0.6.2")]⟩] "six >= 0.0.1" =
      (.Added, [⟨"docopt", [(">=", "0.6.2")]⟩, ⟨"six", [(">=", "0.0.1")]⟩]) := by
  constructor
  · have h := (add_line_added_replaced.1 "docopt >= 0.6.1" ⟨"docopt", [(">=", "0.6.1")]⟩
      [] ⟨"DOCOPT", [(">=", "0.6.2")]⟩ [] (by decide) (by decide) (by decide) (by decide)).1
    simpa using h
  · have h := add_line_added_replaced.2.1 "six >= 0.0.1" ⟨"six", [(">=", "0.0.1")]⟩
      [⟨"docopt", [(">=", "0.6.2")]⟩] (by decide) (by decide)
    simpa using h

/-- C3 counterexample: the record parsed from `"docopt >= 1.0"` is equal per
the SPEC's §3 overlap equality to the existing record
`docopt >= 1.0,<= 2.0` (same name, shared pair `(">=", "1.0")`), yet
`add_line` does not fail with a duplicate error and does not leave the
collection unchanged — it replaces the record, because the code's `__eq__`
compares full spec sets. -/
theorem add_line_overlap_duplicate_fails :
    parseLine "docopt >= 1.0" = some ⟨"docopt", [(">=", "1.0")]⟩ ∧
    specClaimEq ⟨"docopt", [(">=", "1.0")]⟩ ⟨"docopt", [(">=", "1.0"), ("<=", "2.0")]⟩ = true ∧
    add_line [⟨"docopt", [(">=", "1.0"), ("<=", "2.0")]⟩] "docopt >= 1.0" =
      (.Replaced, [⟨"docopt", [(">=", "1.0")]⟩]) := by
  refine ⟨by decide, by decide, by decide⟩

/-- C3 amended: `add_line` fails with the duplicate `ValueError` — leaving
the collection completely unchanged — exactly when the parsed record is
`__eq__`-equal (FULL spec-set equality, not overlap) to the first record
whose name matches case-insensitively. -/
theorem add_line_duplicate_unchanged :
    ∀ (line : String) (req : RequirementPlus)
      (pre : List RequirementPlus) (er : RequirementPlus) (rest : List RequirementPlus),
      parseLine line = some req →
      (∀ x ∈ pre, nameMatches req.name x.name = false) →
      nameMatches req.name er.name = true →
      reqEq req er = true →
      add_line (pre ++ er :: rest) line = (.DuplicateErr, pre ++ er :: rest) := by
  intro line req pre er rest hp hpre her he
  have h := add_line_core_first_match req pre er rest hpre her
  rw [he] at h
  simp only [if_true] at h
  simp [add_line, hp, h]

/-- Witness for C3 amended: re-adding an existing requirement duplicates. -/
theorem add_line_duplicate_unchanged_witness :
    add_line [⟨"six", [(">", "0")]⟩, ⟨"docopt", [(">=", "1.0")]⟩] "docopt >= 1.0" =
      (.DuplicateErr, [⟨"six", [(">", "0")]⟩, ⟨"docopt", [(">=", "1.0")]⟩]) := by
  have h := add_line_duplicate_unchanged "docopt >= 1.0" ⟨"docopt", [(">=", "1.0")]⟩
    [⟨"six", [(">", "0")]⟩] ⟨"docopt", [(">=", "1.0")]⟩ []
    (by decide) (by decide) (by decide) (by decide)
  simpa using h

theorem dictSet_mem {d : List (String × Nat)} {k : String} {v : Nat} :
    ∀ p ∈ dictSet d k v, p ∈ d ∨ p = (k, v) := by
  intro p hp
  unfold dictSet at hp
  by_cases hk : d.any (fun q => q.1 == k)
  · rw [if_pos hk] at hp
    obtain ⟨q, hq, hfq⟩ := List.mem_map.mp hp
    by_cases hqk : q.1 == k
    · right; rw [if_pos hqk] at hfq; exact hfq.symm
    · left
      rw [if_neg hqk] at hfq
      exact hfq ▸ hq
  · rw [if_neg hk] at hp
    rcases List.mem_append.mp hp with h | h
    · exact Or.inl h
    · exact Or.inr (List.mem_singleton.mp h)

theorem dictSet_key_present {d : List (String × Nat)} {k : String} {v : Nat} :
    (dictSet d k v).any (fun p => p.1 == k) = true := by
  unfold dictSet
  by_cases hk : d.any (fun q => q.1 == k)
  · rw [if_pos hk]
    obtain ⟨q, hq, hfq⟩ := List.any_eq_true.mp hk
    refine List.any_eq_true.mpr ⟨(k, v), List.mem_map.mpr ⟨q, hq, ?_⟩, by simp⟩
    rw [if_pos hfq]
  · rw [if_neg hk]
    exact List.any_eq_true.mpr ⟨(k, v), List.mem_append.mpr (Or.inr (by simp)), by simp⟩

theorem dictSet_key_preserved {d : List (String × Nat)} {k k' : String} {v : Nat}
    (h : d.any (fun p => p.1 == k) = true) :
    (dictSet d k' v).any (fun p => p.1 == k) = true := by
  by_cases hkk : k' = k
  · subst hkk; exact dictSet_key_present
  · unfold dictSet
    obtain ⟨q, hq, hfq⟩ := List.any_eq_true.mp h
    by_cases hk' : d.any (fun p => p.1 == k')
    · rw [if_pos hk']
      refine List.any_eq_true.mpr ⟨q, List.mem_map.mpr ⟨q, hq, ?_⟩, hfq⟩
      have : (q.1 == k') = false := by
        simp only [beq_eq_false_iff_ne]
        intro e
        exact hkk ((beq_iff_eq.mp hfq) ▸ e.symm ▸ rfl)
      rw [if_neg (by simp [this])]
    · rw [if_neg hk']
      exact List.any_eq_true.mpr ⟨q, List.mem_append.mpr (Or.inl hq), hfq⟩

theorem duplicatesAux_values (allNames : List String) :
    ∀ (pending : List String) (d : List (String × Nat)),
      (∀ p ∈ d, p.2 = allNames.count p.1 - 1) →
      ∀ p ∈ duplicatesAux allNames pending d, p.2 = allNames.count p.1 - 1 := by
  intro pending
  induction pending with
  | nil => intro d hd; exact hd
  | cons n rest ih =>
    intro d hd
    unfold duplicatesAux
    by_cases hc : allNames.count n = 1
    · rw [if_pos hc]; exact ih d hd
    · rw [if_neg hc]
      refine ih _ ?_
      intro p hp
      rcases dictSet_mem p hp with h | h
      · exact hd p h
      · rw [h]

theorem duplicatesAux_key_preserved (allNames : List String) :
    ∀ (pending : List String) (d : List (String × Nat)) (nm : String),
      d.any (fun p => p.1 == nm) = true →
      (duplicatesAux allNames pending d).any (fun p => p.1 == nm) = true := by
  intro pending
  induction pending with
  | nil => intro d nm h; exact h
  | cons n rest ih =>
    intro d nm h
    unfold duplicatesAux
    by_cases hc : allNames.count n = 1
    · rw [if_pos hc]; exact ih d nm h
    · rw [if_neg hc]; exact ih _ nm (dictSet_key_preserved h)

theorem duplicatesAux_key_found (allNames : List String) :
    ∀ (pending : List String) (d : List (String × Nat)) (nm : String),
      nm ∈ pending → allNames.count nm ≠ 1 →
      (duplicatesAux allNames pending d).any (fun p => p.1 == nm) = true := by
  intro pending
  induction pending with
  | nil => intro d nm h; exact absurd h (List.not_mem_nil nm)
  | cons n rest ih =>
    intro d nm h hc
    rcases List.mem_cons.mp h with he | hm
    · subst he
      unfold duplicatesAux
      rw [if_neg hc]
      exact duplicatesAux_key_preserved allNames rest _ nm dictSet_key_present
    · unfold duplicatesAux
      by_cases hc' : allNames.count n = 1
      · rw [if_pos hc']; exact ih d nm hm hc
      · rw [if_neg hc']; exact ih _ nm hm hc

theorem duplicatesAux_absent (allNames : List String) :
    ∀ (pending : List String) (d : List (String × Nat)) (nm : String),
      allNames.count nm = 1 →
      (∀ p ∈ d, p.1 ≠ nm) →
      ∀ p ∈ duplicatesAux allNames pending d, p.1 ≠ nm := by
  intro pending
  induction pending with
  | nil => intro d nm _ hd; exact hd
  | cons n rest ih =>
    intro d nm hone hd
    unfold duplicatesAux
    by_cases hc : allNames.count n = 1
    · rw [if_pos hc]; exact ih d nm hone hd
    · rw [if_neg hc]
      refine ih _ nm hone ?_
      intro p hp
      rcases dictSet_mem p hp with h | h
      · exact hd p h
      · rw [h]
        intro e
        simp only at e
        subst e
        exact hc hone

/-- C7 counterexample: with records named `Docopt` and `docopt`, the name
`docopt` occurs twice under case-insensitive comparison, yet `duplicates`
reports nothing — the code counts names case-SENSITIVELY. -/
theorem duplicates_case_insensitive_fails :
    (names [⟨"Docopt", [(">=", "1.0")]⟩, ⟨"docopt", [("<=", "2.0")]⟩]).countP
        (fun n => lowerStr n == "docopt") = 2 ∧
    duplicates [⟨"Docopt", [(">=", "1.0")]⟩, ⟨"docopt", [("<=", "2.0")]⟩] = [] := by
  refine ⟨by decide, by decide⟩

/-- C7 amended: `duplicates` reports, for every name occurring more than once
under CASE-SENSITIVE comparison, the entry `(name, occurrences - 1)`, and
carries no entry for a name occurring exactly once; the claim's concrete
example (all lower-case names, so unaffected by the correction) evaluates to
`{docopt: 1, six: 2}` with `lone` omitted. -/
theorem duplicates_excess_counts :
    (∀ (reqs : List RequirementPlus) (nm : String),
      1 < (names reqs).count nm →
      (nm, (names reqs).count nm - 1) ∈ duplicates reqs) ∧
    (∀ (reqs : List RequirementPlus) (nm : String),
      (names reqs).count nm = 1 →
      ∀ v : Nat, (nm, v) ∉ duplicates reqs) ∧
    duplicates [⟨"docopt", [(">=", "0.6.2")]⟩, ⟨"docopt", [("<=", "7.0.0")]⟩,
        ⟨"six", [(">", "0")]⟩, ⟨"six", [(">=", "1.0.0")]⟩, ⟨"six", [(">=", "5.1.0")]⟩,
        ⟨"lone", [("==", "1.0.0")]⟩] = [("docopt", 1), ("six", 2)] := by
  refine ⟨?_, ?_, by decide⟩
  · intro reqs nm hc
    have hmem : nm ∈ names reqs := List.count_pos_iff.mp (Nat.lt_of_lt_of_le Nat.zero_lt_one (Nat.le_of_lt hc))
    have hany := duplicatesAux_key_found (names reqs) (names reqs) [] nm hmem
      (by intro e; rw [e] at hc; exact Nat.lt_irrefl 1 hc)
    obtain ⟨p, hp, hpk⟩ := List.any_eq_true.mp hany
    have hval := duplicatesAux_values (names reqs) (names reqs) [] (by intro p hp; cases hp) p hp
    have hk : p.1 = nm := beq_iff_eq.mp hpk
    have : p = (nm, (names reqs).count nm - 1) := by
      cases p with
      | mk a b =>
        simp only at hk hval
        rw [hk] at hval ⊢
        rw [hval]
    rw [← this]
    exact hp
  · intro reqs nm hone v hmem
    exact duplicatesAux_absent (names reqs) (names reqs) [] nm hone
      (by intro p hp; cases hp) (nm, v) hmem rfl

/-- Witness for C7 amended at a concrete collection. -/
theorem duplicates_excess_counts_witness :
    ("six", 2) ∈ duplicates [⟨"six", [(">", "0")]⟩, ⟨"six", [(">=", "1.0.0")]⟩,
        ⟨"six", [(">=", "5.1.0")]⟩, ⟨"lone", [("==", "1.0.0")]⟩] ∧
    ∀ v : Nat, ("lone", v) ∉ duplicates [⟨"six", [(">", "0")]⟩, ⟨"six", [(">=", "1.0.0")]⟩,
        ⟨"six", [(">=", "5.1.0")]⟩, ⟨"lone", [("==", "1.0.0")]⟩] := by
  constructor
  · have h := duplicates_excess_counts.1 [⟨"six", [(">", "0")]⟩, ⟨"six", [(">=", "1.0.0")]⟩,
      ⟨"six", [(">=", "5.1.0")]⟩, ⟨"lone", [("==", "1.0.0")]⟩] "six" (by decide)
    simpa using h
  · exact duplicates_excess_counts.2.1 [⟨"six", [(">", "0")]⟩, ⟨"six", [(">=", "1.0.0")]⟩,
      ⟨"six", [(">=", "5.1.0")]⟩, ⟨"lone", [("==", "1.0.0")]⟩] "lone" (by decide)

/-- C8: when the scoped write fails mid-operation on a pre-existing target
file, the prior content survives in the backup file left on disk (the target
itself holds the partial write, which is what the backup exists to recover
from); when the scoped write succeeds (no stale backup beforehand), no backup
file remains afterward — the backup made on entry, if any, is deleted on
clean scope exit. -/
theorem safeWrite_backup_contract :
    ∀ (fs : FS) (content halfWritten prior : String),
      (fs.target = some prior →
        safeWrite fs content true halfWritten =
          ⟨some halfWritten, some prior⟩) ∧
      (fs.bak = none →
        safeWrite fs content false halfWritten = ⟨some content, none⟩) := by
  intro fs content halfWritten prior
  constructor
  · intro h
    simp [safeWrite, h]
  · intro h
    cases ht : fs.target <;> simp [safeWrite, ht, h]

/-- Witness for C8: a failing write on a file containing `old` leaves backup
`old` on disk; a clean write leaves no backup. -/
theorem safeWrite_backup_contract_witness :
    safeWrite ⟨some "old", none⟩ "new" true "ne" = ⟨some "ne", some "old"⟩ ∧
    safeWrite ⟨some "old", none⟩ "new" false "" = ⟨some "new", none⟩ := by
  exact ⟨(safeWrite_backup_contract ⟨some "old", none⟩ "new" "ne" "old").1 rfl,
    (safeWrite_backup_contract ⟨some "old", none⟩ "new" "" "old").2 rfl⟩

theorem parseAll_none {lines : List String} {l : String} (hl : l ∈ lines)
    (hp : parseLine l = none) : parseAll lines = none := by
  induction lines with
  | nil => cases hl
  | cons x rest ih =>
    rcases List.mem_cons.mp hl with he | hm
    · subst he
      simp [parseAll, hp]
    · cases hx : parseLine x <;> simp [parseAll, hx, ih hm]

theorem parseAll_perm {l1 l2 : List String} (hp : l1.Perm l2) :
    ∀ {r1 : List RequirementPlus}, parseAll l1 = some r1 →
      ∃ r2, parseAll l2 = some r2 ∧ r1.Perm r2 := by
  induction hp with
  | nil =>
    intro r1 h
    exact ⟨r1, h, List.Perm.refl r1⟩
  | cons x hperm ih =>
    rename_i t1 t2
    intro r1 h
    cases hx : parseLine x
    · simp [parseAll, hx] at h
    case some rx =>
      cases hr : parseAll t1
      · simp [parseAll, hx, hr] at h
      case some rs =>
        simp only [parseAll, hx, hr, Option.some.injEq] at h
        obtain ⟨r2, hr2, hperm2⟩ := ih hr
        refine ⟨rx :: r2, ?_, ?_⟩
        · simp [parseAll, hx, hr2]
        · rw [← h]
          exact hperm2.cons rx
  | swap x y l =>
    intro r1 h
    cases hy : parseLine y
    · simp [parseAll, hy] at h
    case some ry =>
      cases hx : parseLine x
      · simp [parseAll, hx, hy] at h
      case some rx =>
        cases hr : parseAll l
        · simp [parseAll, hx, hy, hr] at h
        case some rs =>
          simp only [parseAll, hx, hy, hr, Option.some.injEq] at h
          refine ⟨rx :: ry :: rs, ?_, ?_⟩
          · simp [parseAll, hx, hy, hr]
          · rw [← h]
            exact List.Perm.swap rx ry rs
  | trans h1 h2 ih1 ih2 =>
    intro r1 h
    obtain ⟨r2, hr2, hp2⟩ := ih1 h
    obtain ⟨r3, hr3, hp3⟩ := ih2 hr2
    exact ⟨r3, hr3, hp2.trans hp3⟩

/-- C6 counterexample: `from_lines` does not preserve input order — it sorts
the lines first (`["b >= 1.0", "a >= 1.0"]` comes back in order a, b) — and
it does not skip blank or comment lines: any such line fails the whole
parse. -/
theorem from_lines_input_order_fails :
    from_lines ["b >= 1.0", "a >= 1.0"] =
      some [⟨"a", [(">=", "1.0")]⟩, ⟨"b", [(">=", "1.0")]⟩] ∧
    (from_lines ["b >= 1.0", "a >= 1.0"]).map names ≠ some ["b", "a"] ∧
    from_lines ["", "a >= 1.0"] = none ∧
    from_lines ["# comment", "a >= 1.0"] = none := by
  refine ⟨by decide, by decide, by decide, by decide⟩

/-- C6 amended: `from_lines` parses every line after SORTING the lines
lexicographically; blank and comment lines are not skipped but fail the
whole operation, and a successful result lists, in sorted-line order, a
permutation of the records parsed in input order. -/
theorem from_lines_sorts_and_rejects :
    (∀ (lines : List String) (l : String), l ∈ lines → parseLine l = none →
      from_lines lines = none) ∧
    (∀ (lines : List String) (reqs : List RequirementPlus),
      from_lines lines = some reqs →
      ∃ origs : List RequirementPlus, parseAll lines = some origs ∧ reqs.Perm origs) := by
  constructor
  · intro lines l hl hp
    unfold from_lines sortStrings
    exact parseAll_none ((List.mem_insertionSort _).mpr hl) hp
  · intro lines reqs h
    exact parseAll_perm (List.perm_insertionSort _ lines) h

/-- Witness for C6 amended at concrete lines. -/
theorem from_lines_sorts_and_rejects_witness :
    from_lines ["# comment"] = none ∧
    ∃ origs : List RequirementPlus, parseAll ["b >= 1.0", "a >= 1.0"] = some origs ∧
      ([⟨"a", [(">=", "1.0")]⟩, ⟨"b", [(">=", "1.0")]⟩] : List RequirementPlus).Perm origs := by
  constructor
  · exact from_lines_sorts_and_rejects.1 ["# comment"] "# comment" (by decide) (by decide)
  · exact from_lines_sorts_and_rejects.2 ["b >= 1.0", "a >= 1.0"]
      [⟨"a", [(">=", "1.0")]⟩, ⟨"b", [(">=", "1.0")]⟩] (by decide)

theorem charListLt_irrefl : ∀ l : List Char, charListLt l l = false := by
  intro l
  induction l with
  | nil => rfl
  | cons a as ih => simp [charListLt, ih]

theorem charListLt_trans : ∀ (a b c : List Char),
    charListLt a b = true → charListLt b c = true → charListLt a c = true := by
  intro a
  induction a with
  | nil =>
    intro b c h1 h2
    cases b with
    | nil => cases h1
    | cons b1 bs =>
      cases c with
      | nil => cases h2
      | cons c1 cs => rfl
  | cons a1 as ih =>
    intro b c h1 h2
    cases b with
    | nil => cases h1
    | cons b1 bs =>
      cases c with
      | nil => cases h2
      | cons c1 cs =>
        rw [charListLt] at h1 h2 ⊢
        by_cases hab : a1 < b1
        · by_cases hbc : b1 < c1
          · rw [if_pos (lt_trans hab hbc)]
          · rw [if_neg hbc] at h2
            by_cases hbe : b1 = c1
            · subst hbe
              rw [if_pos hab]
            · rw [if_neg hbe] at h2; cases h2
        · rw [if_neg hab] at h1
          by_cases hae : a1 = b1
          · rw [if_pos hae] at h1
            subst hae
            by_cases hbc : a1 < c1
            · rw [if_pos hbc]
            · rw [if_neg hbc] at h2 ⊢
              by_cases hbe : a1 = c1
              · rw [if_pos hbe] at h2 ⊢
                exact ih bs cs h1 h2
              · rw [if_neg hbe] at h2; cases h2
          · rw [if_neg hae] at h1; cases h1

theorem charListLt_conn : ∀ (a b : List Char),
    charListLt a b = false → charListLt b a = false → a = b := by
  intro a
  induction a with
  | nil =>
    intro b h1 _
    cases b with
    | nil => rfl
    | cons b1 bs => cases h1
  | cons a1 as ih =>
    intro b h1 h2
    cases b with
    | nil => cases h2
    | cons b1 bs =>
      rw [charListLt] at h1 h2
      by_cases hab : a1 < b1
      · rw [if_pos hab] at h1; cases h1
      · rw [if_neg hab] at h1
        by_cases hba : b1 < a1
        · rw [if_pos hba] at h2; cases h2
        · rw [if_neg hba] at h2
          have he : a1 = b1 := le_antisymm (not_lt.mp hba) (not_lt.mp hab)
          subst he
          rw [if_pos rfl] at h1 h2
          rw [ih bs h1 h2]

theorem strLe_total (a b : String) : strLe a b = true ∨ strLe b a = true := by
  unfold strLe
  by_cases h : charListLt b.data a.data = true
  · right
    simp only [Bool.not_eq_true']
    by_cases h2 : charListLt a.data b.data = true
    · have hf := charListLt_trans _ _ _ h h2
      rw [charListLt_irrefl] at hf
      cases hf
    · simpa using h2
  · left
    simp only [Bool.not_eq_true']
    simpa using h

theorem strLe_trans {a b c : String} (h1 : strLe a b = true) (h2 : strLe b c = true) :
    strLe a c = true := by
  unfold strLe at h1 h2 ⊢
  simp only [Bool.not_eq_true'] at h1 h2 ⊢
  by_cases hca : charListLt c.data a.data = true
  · by_cases hab : charListLt a.data b.data = true
    · have hf := charListLt_trans _ _ _ hca hab
      rw [h2] at hf
      cases hf
    · have he : a.data = b.data :=
        charListLt_conn _ _ (by simpa using hab) h1
      rw [he] at hca
      rw [h2] at hca
      cases hca
  · simpa using hca

theorem takeWhile_append_stop {p : Char → Bool} :
    ∀ (l1 l2 : List Char), (∀ c ∈ l1, p c = true) →
      (∀ c, l2.head? = some c → p c = false) →
      (l1 ++ l2).takeWhile p = l1 ∧ (l1 ++ l2).dropWhile p = l2 := by
  intro l1
  induction l1 with
  | nil =>
    intro l2 _ h2
    cases l2 with
    | nil => exact ⟨rfl, rfl⟩
    | cons c cs =>
      have hc := h2 c rfl
      exact ⟨by simp [List.takeWhile_cons, hc], by simp [List.dropWhile_cons, hc]⟩
  | cons a l1' ih =>
    intro l2 h1 h2
    have ha := h1 a (List.mem_cons_self a l1')
    have hih := ih l2 (fun c hc => h1 c (List.mem_cons_of_mem a hc)) h2
    exact ⟨by simp [List.takeWhile_cons, ha, hih.1],
      by simp [List.dropWhile_cons, ha, hih.2]⟩

theorem dropWhile_append_all {p : Char → Bool} :
    ∀ (l1 l2 : List Char), (∀ c ∈ l1, p c = true) →
      (l1 ++ l2).dropWhile p = l2.dropWhile p := by
  intro l1
  induction l1 with
  | nil => intro l2 _; rfl
  | cons a l1' ih =>
    intro l2 h
    have ha := h a (List.mem_cons_self a l1')
    have hih := ih l2 (fun c hc => h c (List.mem_cons_of_mem a hc))
    simp [List.dropWhile_cons, ha, hih]

theorem dropWhile_head_stop {p : Char → Bool} (l : List Char)
    (h : ∀ c, l.head? = some c → p c = false) : l.dropWhile p = l := by
  cases l with
  | nil => rfl
  | cons c cs => simp [List.dropWhile_cons, h c rfl]

theorem trimChars_eq_self (l : List Char)
    (hh : ∀ c, l.head? = some c → isSpaceChar c = false)
    (hl : ∀ c, l.getLast? = some c → isSpaceChar c = false) :
    trimChars l = l := by
  unfold trimChars
  rw [dropWhile_head_stop l hh,
    dropWhile_head_stop l.reverse (fun c hc => hl c (by rwa [List.head?_reverse] at hc)),
    List.reverse_reverse]

theorem trimChars_pad (a : Char) (l t : List Char)
    (ha : isSpaceChar a = false)
    (ht : ∀ c ∈ t, isSpaceChar c = true) :
    trimChars ((a :: l) ++ t) = trimChars (a :: l) := by
  unfold trimChars
  have h1 : ((a :: l) ++ t).dropWhile isSpaceChar = (a :: l) ++ t := by
    simp [List.dropWhile_cons, ha]
  have h2 : (a :: l).dropWhile isSpaceChar = a :: l := by
    simp [List.dropWhile_cons, ha]
  rw [h1, h2, List.reverse_append,
    dropWhile_append_all t.reverse (a :: l).reverse
      (fun c hc => ht c (List.mem_reverse.mp hc))]

theorem trimChars_cons_space (a : Char) (l : List Char) (ha : isSpaceChar a = true) :
    trimChars (a :: l) = trimChars l := by
  unfold trimChars
  simp [List.dropWhile_cons, ha]

theorem interc_cons_cons (sep : List Char) (x y : List Char) (ys : List (List Char)) :
    interc sep (x :: y :: ys) = x ++ sep ++ interc sep (y :: ys) := by
  rfl

theorem interc_cons_head (sep : List Char) (c : Char) (p : List Char)
    (ps : List (List Char)) :
    (interc sep ((c :: p) :: ps)).head? = some c := by
  cases ps with
  | nil => rfl
  | cons q qs => rfl

theorem interc_append_last (sep : List Char) :
    ∀ (ps : List (List Char)) (plast : List Char),
      ∃ X : List Char, interc sep (ps ++ [plast]) = X ++ plast := by
  intro ps
  induction ps with
  | nil => intro plast; exact ⟨[], rfl⟩
  | cons x ps' ih =>
    intro plast
    obtain ⟨X, hX⟩ := ih plast
    cases ps' with
    | nil =>
      refine ⟨x ++ sep, ?_⟩
      simp only [List.cons_append, List.nil_append]
      rw [interc_cons_cons]
      simp [interc, List.append_assoc]
    | cons y ys =>
      refine ⟨x ++ sep ++ X, ?_⟩
      simp only [List.cons_append] at hX ⊢
      rw [interc_cons_cons, hX]
      simp [List.append_assoc]

theorem exists_last {α : Type} (l : List α) (h : l ≠ []) :
    ∃ init x, l = init ++ [x] ∧ x ∈ l := by
  cases hr : l.reverse with
  | nil =>
    exact absurd (by simpa using congrArg List.reverse hr) h
  | cons x t =>
    refine ⟨t.reverse, x, ?_, ?_⟩
    · have := congrArg List.reverse hr
      simpa using this
    · have : x ∈ l.reverse := by rw [hr]; exact List.mem_cons_self x t
      exact List.mem_reverse.mp this

theorem mem_interc {sep : List Char} {c : Char} :
    ∀ {pieces : List (List Char)}, c ∈ interc sep pieces →
      c ∈ sep ∨ ∃ p ∈ pieces, c ∈ p := by
  intro pieces
  induction pieces with
  | nil => intro h; cases h
  | cons x xs ih =>
    intro h
    cases xs with
    | nil => exact Or.inr ⟨x, List.mem_singleton_self x, h⟩
    | cons y ys =>
      rw [interc_cons_cons] at h
      rcases List.mem_append.mp h with h1 | h2
      · rcases List.mem_append.mp h1 with ha | hb
        · exact Or.inr ⟨x, List.mem_cons_self x (y :: ys), ha⟩
        · exact Or.inl hb
      · rcases ih h2 with hs | ⟨p, hp, hcp⟩
        · exact Or.inl hs
        · exact Or.inr ⟨p, List.mem_cons_of_mem x hp, hcp⟩

theorem splitOnChar_no_sep (sep : Char) :
    ∀ l : List Char, sep ∉ l → splitOnChar sep l = [l] := by
  intro l
  induction l with
  | nil => intro _; rfl
  | cons c rest ih =>
    intro h
    have hc : ¬(c = sep) := fun e => h (e ▸ List.mem_cons_self c rest)
    have hr := ih (fun hm => h (List.mem_cons_of_mem c hm))
    simp [splitOnChar, hc, hr]

theorem splitOnChar_prefix (sep : Char) :
    ∀ (x rest : List Char), sep ∉ x →
      splitOnChar sep (x ++ sep :: rest) = x :: splitOnChar sep rest := by
  intro x
  induction x with
  | nil => intro rest _; simp [splitOnChar]
  | cons c x' ih =>
    intro rest h
    have hc : ¬(c = sep) := fun e => h (e ▸ List.mem_cons_self c x')
    have hr := ih rest (fun hm => h (List.mem_cons_of_mem c hm))
    simp [splitOnChar, hc, hr]

theorem splitOnChar_interc (sep : Char) :
    ∀ pieces : List (List Char), pieces ≠ [] → (∀ p ∈ pieces, sep ∉ p) →
      splitOnChar sep (interc [sep] pieces) = pieces := by
  intro pieces
  induction pieces with
  | nil => intro h; exact absurd rfl h
  | cons x xs ih =>
    intro _ hp
    cases xs with
    | nil => exact splitOnChar_no_sep sep x (hp x (List.mem_singleton_self x))
    | cons y ys =>
      rw [interc_cons_cons]
      have e : x ++ [sep] ++ interc [sep] (y :: ys) =
          x ++ sep :: interc [sep] (y :: ys) := by simp
      rw [e, splitOnChar_prefix sep x _ (hp x (List.mem_cons_self x (y :: ys)))]
      rw [ih (by simp) (fun p hp' => hp p (List.mem_cons_of_mem x hp'))]

theorem readlinesList_line (rest : List Char) :
    ∀ x : List Char, '\n' ∉ x →
      readlinesList (x ++ '\n' :: rest) = (x ++ ['\n']) :: readlinesList rest := by
  intro x
  induction x with
  | nil => intro _; simp [readlinesList]
  | cons c x' ih =>
    intro h
    have hc : ¬(c = '\n') := fun e => h (e ▸ List.mem_cons_self c x')
    have hr := ih (fun hm => h (List.mem_cons_of_mem c hm))
    simp [readlinesList, hc, hr]

theorem readlinesList_interc :
    ∀ lines : List (List Char), lines ≠ [] → (∀ l ∈ lines, '\n' ∉ l) →
      readlinesList (interc ['\n'] lines ++ ['\n']) =
        lines.map (fun l => l ++ ['\n']) := by
  intro lines
  induction lines with
  | nil => intro h; exact absurd rfl h
  | cons x xs ih =>
    intro _ hl
    cases xs with
    | nil =>
      have h := readlinesList_line [] x (hl x (List.mem_singleton_self x))
      simpa [readlinesList] using h
    | cons y ys =>
      rw [interc_cons_cons]
      have e : x ++ ['\n'] ++ interc ['\n'] (y :: ys) ++ ['\n'] =
          x ++ '\n' :: (interc ['\n'] (y :: ys) ++ ['\n']) := by simp
      rw [e, readlinesList_line _ x (hl x (List.mem_cons_self x (y :: ys)))]
      rw [ih (by simp) (fun l hm => hl l (List.mem_cons_of_mem x hm))]
      simp

theorem head?_mem {α : Type} {l : List α} {a : α} (h : l.head? = some a) : a ∈ l := by
  cases l with
  | nil => cases h
  | cons x xs =>
    simp only [List.head?_cons, Option.some.injEq] at h
    rw [← h]
    exact List.mem_cons_self x xs

theorem getLast?_mem {α : Type} {l : List α} {a : α} (h : l.getLast? = some a) : a ∈ l := by
  have h' : l.reverse.head? = some a := by rw [List.head?_reverse]; exact h
  exact List.mem_reverse.mp (head?_mem h')

theorem trimChars_all_good (l : List Char) (h : ∀ c ∈ l, isSpaceChar c = false) :
    trimChars l = l := by
  apply trimChars_eq_self
  · intro c hc; exact h c (head?_mem hc)
  · intro c hc; exact h c (getLast?_mem hc)

theorem string_mk_data (s : String) : String.mk s.data = s := by
  cases s
  rfl

theorem opChar_not_space {c : Char} (h : isOpChar c = true) : isSpaceChar c = false := by
  simp only [isOpChar, Bool.or_eq_true, decide_eq_true_eq] at h
  rcases h with (h | h) | h <;> subst h <;> decide

theorem goodVerChar_props {c : Char} (h : goodVerChar c = true) :
    isSpaceChar c = false ∧ isOpChar c = false ∧ ¬(c = ',') := by
  simp only [goodVerChar, Bool.not_eq_true', Bool.or_eq_false_iff,
    decide_eq_false_iff_not] at h
  exact ⟨h.1.1, h.1.2, h.2⟩

theorem goodNameChar_props {c : Char} (h : goodNameChar c = true) :
    isSpaceChar c = false ∧ nameStopChar c = false ∧ ¬(c = '#') := by
  simp only [goodNameChar, Bool.not_eq_true', Bool.or_eq_false_iff,
    decide_eq_false_iff_not] at h
  refine ⟨h.1.1.1.1, ?_, h.2⟩
  simp only [nameStopChar, Bool.or_eq_false_iff, decide_eq_false_iff_not]
  exact ⟨⟨⟨h.1.1.1.1, h.1.1.1.2⟩, h.1.1.2⟩, h.1.2⟩

theorem op_facts {op : String} (h : VALID_OPS.contains op = true) :
    op.data ≠ [] ∧ (∀ c ∈ op.data, isOpChar c = true) := by
  have h' : op = "==" ∨ op = ">=" ∨ op = "<=" ∨ op = ">" ∨ op = "<" := by
    have hm : op ∈ VALID_OPS := by
      simpa using h
    simpa [VALID_OPS] using hm
  rcases h' with e | e | e | e | e <;> subst e <;> exact ⟨by decide, by decide⟩

theorem wfSpec_props {p : Spec} (h : wfSpec p = true) :
    VALID_OPS.contains p.1 = true ∧ p.2.data ≠ [] ∧
      ∀ c ∈ p.2.data, goodVerChar c = true := by
  simp only [wfSpec, Bool.and_eq_true, Bool.not_eq_true', List.all_eq_true] at h
  refine ⟨h.1.1, ?_, h.2⟩
  intro he
  rw [← List.isEmpty_iff] at he
  rw [he] at h
  simp at h

theorem wf_props {r : RequirementPlus} (h : WellFormed r = true) :
    r.name.data ≠ [] ∧ (∀ c ∈ r.name.data, goodNameChar c = true) ∧
      ∀ p ∈ r.specs, wfSpec p = true := by
  simp only [WellFormed, Bool.and_eq_true, Bool.not_eq_true', List.all_eq_true] at h
  refine ⟨?_, h.1.2, h.2⟩
  intro he
  rw [← List.isEmpty_iff] at he
  rw [he] at h
  simp at h

theorem renderChars_no_newline {r : RequirementPlus} (h : WellFormed r = true) :
    '\n' ∉ renderChars r := by
  obtain ⟨hne, hname, hspecs⟩ := wf_props h
  intro hm
  unfold renderChars at hm
  rcases List.mem_append.mp hm with h1 | h2
  · exact absurd (hname '\n' h1) (by decide)
  · rcases List.mem_cons.mp h2 with he | h3
    · exact absurd he (by decide)
    · rcases mem_interc h3 with hs | ⟨p, hp, hcp⟩
      · exact absurd hs (by decide)
      · obtain ⟨q, hq, hpe⟩ := List.mem_map.mp hp
        obtain ⟨hopq, _, hvallq⟩ := wfSpec_props (hspecs q hq)
        rw [← hpe] at hcp
        unfold specPieceChars at hcp
        rcases List.mem_append.mp hcp with ho | hv
        · exact absurd ((op_facts hopq).2 '\n' ho) (by decide)
        · rcases List.mem_cons.mp hv with he | hvm
          · exact absurd he (by decide)
          · exact absurd (hvallq '\n' hvm) (by decide)

theorem piece_no_comma {p : Spec} (h : wfSpec p = true) : ',' ∉ specPieceChars p := by
  obtain ⟨hop, _, hvall⟩ := wfSpec_props h
  intro hm
  unfold specPieceChars at hm
  rcases List.mem_append.mp hm with ho | hv
  · exact absurd ((op_facts hop).2 ',' ho) (by decide)
  · rcases List.mem_cons.mp hv with he | hvm
    · exact absurd he (by decide)
    · exact absurd (hvall ',' hvm) (fun hg => (goodVerChar_props hg).2.2 rfl)

theorem parseSpecPiece_render {p : Spec} (h : wfSpec p = true) :
    parseSpecPiece (specPieceChars p) = some p := by
  obtain ⟨hop, hvne, hvall⟩ := wfSpec_props h
  obtain ⟨hopne, hopchars⟩ := op_facts hop
  obtain ⟨oc, orest, hodata⟩ : ∃ oc orest, p.1.data = oc :: orest := by
    cases ho : p.1.data with
    | nil => exact absurd ho hopne
    | cons a l => exact ⟨a, l, rfl⟩
  obtain ⟨vinit, vlast, hvdec, hvmem⟩ := exists_last p.2.data hvne
  have hocs : isSpaceChar oc = false :=
    opChar_not_space (hopchars oc (by rw [hodata]; exact List.mem_cons_self oc orest))
  have hvls : isSpaceChar vlast = false := (goodVerChar_props (hvall vlast hvmem)).1
  have htrim : trimChars (p.1.data ++ ' ' :: p.2.data) = p.1.data ++ ' ' :: p.2.data := by
    apply trimChars_eq_self
    · intro c hc
      rw [hodata] at hc
      simp only [List.cons_append, List.head?_cons, Option.some.injEq] at hc
      rw [← hc]
      exact hocs
    · intro c hc
      have e : p.1.data ++ ' ' :: p.2.data = (p.1.data ++ ' ' :: vinit) ++ [vlast] := by
        rw [hvdec]
        simp
      rw [e, List.getLast?_concat] at hc
      simp only [Option.some.injEq] at hc
      rw [← hc]
      exact hvls
  have hsplit := takeWhile_append_stop p.1.data (' ' :: p.2.data) hopchars
    (fun c hc => by
      simp only [List.head?_cons, Option.some.injEq] at hc
      rw [← hc]
      decide)
  have htv : trimChars (' ' :: p.2.data) = p.2.data := by
    rw [trimChars_cons_space ' ' p.2.data (by decide)]
    exact trimChars_all_good p.2.data (fun c hc => (goodVerChar_props (hvall c hc)).1)
  simp only [parseSpecPiece, specPieceChars]
  simp only [htrim, hsplit.1, hsplit.2, htv, string_mk_data]
  have hmem : p.1 ∈ VALID_OPS := by simpa using hop
  simp [hmem, hvne]

theorem parseSpecs_map {specs : List Spec} (h : ∀ p ∈ specs, wfSpec p = true) :
    parseSpecs (specs.map specPieceChars) = some specs := by
  induction specs with
  | nil => rfl
  | cons p ps ih =>
    have hp := parseSpecPiece_render (h p (List.mem_cons_self p ps))
    have hps := ih (fun q hq => h q (List.mem_cons_of_mem p hq))
    simp [parseSpecs, hp, hps]

theorem takeWhile_all {p : Char → Bool} (l : List Char) (h : ∀ c ∈ l, p c = true) :
    l.takeWhile p = l ∧ l.dropWhile p = [] := by
  have hs := takeWhile_append_stop l [] h (fun c hc => by cases hc)
  simpa using hs

theorem parseChars_render {r : RequirementPlus} (h : WellFormed r = true)
    (pad : List Char) (hpad : ∀ c ∈ pad, isSpaceChar c = true) :
    parseChars (renderChars r ++ pad) = some r := by
  obtain ⟨rname, rspecs⟩ := r
  obtain ⟨hnne, hname, hspecs⟩ := wf_props h
  simp only at hnne hname hspecs
  obtain ⟨nc, nrest, hndata⟩ : ∃ nc nrest, rname.data = nc :: nrest := by
    cases hn : rname.data with
    | nil => exact absurd hn hnne
    | cons a l => exact ⟨a, l, rfl⟩
  have hncgood := goodNameChar_props (hname nc (by rw [hndata]; exact List.mem_cons_self nc nrest))
  have hstopall : ∀ c ∈ rname.data, (fun ch => !nameStopChar ch) c = true :=
    fun c hc => by
      simp only
      rw [(goodNameChar_props (hname c hc)).2.1]
      rfl
  have hpadtrim : trimChars (renderChars ⟨rname, rspecs⟩ ++ pad) =
      trimChars (renderChars ⟨rname, rspecs⟩) := by
    have e : renderChars ⟨rname, rspecs⟩ =
        nc :: (nrest ++ ' ' :: spec_string ⟨rname, rspecs⟩) := by
      unfold renderChars
      simp only
      rw [hndata]
      rfl
    rw [e]
    exact trimChars_pad nc _ pad hncgood.1 hpad
  cases hsp : rspecs with
  | nil =>
    subst hsp
    have hss : spec_string ⟨rname, []⟩ = [] := rfl
    have hrender : renderChars ⟨rname, ([] : List Spec)⟩ = rname.data ++ [' '] := by
      unfold renderChars
      simp only [hss]
    have htrimr : trimChars (renderChars ⟨rname, ([] : List Spec)⟩) = rname.data := by
      rw [hrender, hndata,
        trimChars_pad nc nrest [' '] hncgood.1 (by decide), ← hndata]
      exact trimChars_all_good rname.data
        (fun c hc => (goodNameChar_props (hname c hc)).1)
    have htake := takeWhile_all rname.data hstopall
    have hheadhash : ¬(rname.data.head? = some '#') := by
      rw [hndata]
      simp only [List.head?_cons, Option.some.injEq]
      exact hncgood.2.2
    simp only [parseChars, hpadtrim, htrimr, htake.1, htake.2]
    rw [if_neg hheadhash, if_neg hnne]
    have htnil : trimChars ([] : List Char) = [] := rfl
    rw [htnil, if_pos rfl, string_mk_data]
  | cons p ps =>
    subst hsp
    have hwfp : wfSpec p = true := hspecs p (List.mem_cons_self p ps)
    obtain ⟨hopp, hvnep, hvallp⟩ := wfSpec_props hwfp
    obtain ⟨oc, orest, hodata⟩ : ∃ oc orest, p.1.data = oc :: orest := by
      cases ho : p.1.data with
      | nil => exact absurd ho (op_facts hopp).1
      | cons a l => exact ⟨a, l, rfl⟩
    have hocs : isSpaceChar oc = false :=
      opChar_not_space ((op_facts hopp).2 oc (by rw [hodata]; exact List.mem_cons_self oc orest))
    have hssdef : spec_string ⟨rname, p :: ps⟩ =
        interc [','] ((p :: ps).map specPieceChars) := rfl
    have hhead : (spec_string ⟨rname, p :: ps⟩).head? = some oc := by
      rw [hssdef]
      have e : specPieceChars p = oc :: (orest ++ ' ' :: p.2.data) := by
        unfold specPieceChars
        rw [hodata]
        rfl
      rw [List.map_cons, e]
      exact interc_cons_head [','] oc _ _
    have hplne : ((p :: ps).map specPieceChars) ≠ [] := by simp
    obtain ⟨pinit, plast, hpdec, hplmem⟩ := exists_last _ hplne
    obtain ⟨q, hqmem, hqe⟩ := List.mem_map.mp hplmem
    have hwfq : wfSpec q = true := hspecs q hqmem
    obtain ⟨hopq, hvneq, hvallq⟩ := wfSpec_props hwfq
    obtain ⟨vinit, vlast, hvdec, hvmem⟩ := exists_last q.2.data hvneq
    have hvls : isSpaceChar vlast = false := (goodVerChar_props (hvallq vlast hvmem)).1
    obtain ⟨X, hX⟩ := interc_append_last [','] pinit plast
    have hssY : spec_string ⟨rname, p :: ps⟩ =
        (X ++ (q.1.data ++ ' ' :: vinit)) ++ [vlast] := by
      rw [hssdef, hpdec, hX, ← hqe]
      unfold specPieceChars
      rw [hvdec]
      simp [List.append_assoc]
    have hssne : spec_string ⟨rname, p :: ps⟩ ≠ [] := by
      rw [hssY]
      simp
    have hsslast : (spec_string ⟨rname, p :: ps⟩).getLast? = some vlast := by
      rw [hssY]
      exact List.getLast?_concat _
    have htrimr : trimChars (renderChars ⟨rname, p :: ps⟩) = renderChars ⟨rname, p :: ps⟩ := by
      apply trimChars_eq_self
      · intro c hc
        unfold renderChars at hc
        simp only at hc
        rw [hndata] at hc
        simp only [List.cons_append, List.head?_cons, Option.some.injEq] at hc
        rw [← hc]
        exact hncgood.1
      · intro c hc
        unfold renderChars at hc
        simp only at hc
        rw [hssY] at hc
        have e : rname.data ++ ' ' :: ((X ++ (q.1.data ++ ' ' :: vinit)) ++ [vlast]) =
            (rname.data ++ ' ' :: (X ++ (q.1.data ++ ' ' :: vinit))) ++ [vlast] := by
          simp
        rw [e, List.getLast?_concat] at hc
        simp only [Option.some.injEq] at hc
        rw [← hc]
        exact hvls
    have hsplit := takeWhile_append_stop rname.data (' ' :: spec_string ⟨rname, p :: ps⟩)
      hstopall
      (fun c hc => by
        simp only [List.head?_cons, Option.some.injEq] at hc
        rw [← hc]
        decide)
    have hrest : trimChars (' ' :: spec_string ⟨rname, p :: ps⟩) =
        spec_string ⟨rname, p :: ps⟩ := by
      rw [trimChars_cons_space ' ' _ (by decide)]
      apply trimChars_eq_self
      · intro c hc
        rw [hhead] at hc
        simp only [Option.some.injEq] at hc
        rw [← hc]
        exact hocs
      · intro c hc
        rw [hsslast] at hc
        simp only [Option.some.injEq] at hc
        rw [← hc]
        exact hvls
    have hsplitcomma : splitOnChar ',' (spec_string ⟨rname, p :: ps⟩) =
        (p :: ps).map specPieceChars := by
      rw [hssdef]
      exact splitOnChar_interc ',' _ hplne
        (fun pc hpc => by
          obtain ⟨q', hq', he'⟩ := List.mem_map.mp hpc
          rw [← he']
          exact piece_no_comma (hspecs q' hq'))
    have hparse : parseSpecs ((p :: ps).map specPieceChars) = some (p :: ps) :=
      parseSpecs_map (fun q' hq' => hspecs q' hq')
    have hheadhash : ¬((rname.data ++ ' ' :: spec_string ⟨rname, p :: ps⟩).head? = some '#') := by
      rw [hndata]
      simp only [List.cons_append, List.head?_cons, Option.some.injEq]
      exact hncgood.2.2
    have hrender : renderChars ⟨rname, p :: ps⟩ =
        rname.data ++ ' ' :: spec_string ⟨rname, p :: ps⟩ := rfl
    simp only [parseChars]
    simp only [hpadtrim]
    simp only [htrimr]
    simp only [hrender]
    simp only [hsplit.1, hsplit.2, hrest]
    rw [if_neg hheadhash, if_neg hnne, if_neg hssne, hsplitcomma, hparse]
    simp [string_mk_data]

theorem parseAll_map_render {X : List RequirementPlus} (h : ∀ r ∈ X, WellFormed r = true) :
    parseAll (X.map (fun r => render r ++ "\n")) = some X := by
  induction X with
  | nil => rfl
  | cons r rs ih =>
    have hr : parseLine (render r ++ "\n") = some r := by
      show parseChars (render r ++ "\n").data = some r
      have e : (render r ++ "\n").data = renderChars r ++ ['\n'] := rfl
      rw [e]
      exact parseChars_render (h r (List.mem_cons_self r rs)) ['\n'] (by decide)
    simp [parseAll, hr, ih (fun q hq => h q (List.mem_cons_of_mem r hq))]

/-- C5 counterexample: the empty collection breaks the claim: `write`
produces the file `"\n"` — one blank line, not zero lines ("one line per
record") — and reading that file back fails (the blank line does not parse)
instead of producing an equal collection. -/
theorem write_round_trip_empty_fails :
    writeContent [] = "\n" ∧
    readlines (writeContent []) = ["\n"] ∧
    from_file (writeContent []) = none := by
  refine ⟨by decide, by decide, by decide⟩

/-- C5 amended: for every NONEMPTY collection of well-formed plain records,
the file written by `write` has exactly one line per record — the records
sorted by name under the case-sensitive ordinal order, each line with a
trailing newline — and reading the file back succeeds, producing a
collection whose records are a permutation of the original ones (the
name/spec content round-trips; the order is the sorted order). -/
theorem write_sorted_round_trip :
    ∀ reqs : List RequirementPlus, reqs ≠ [] →
      (∀ r ∈ reqs, WellFormed r = true) →
      readlines (writeContent reqs) =
        (sortByName reqs).map (fun r => render r ++ "\n") ∧
      (readlines (writeContent reqs)).length = reqs.length ∧
      List.Pairwise (fun a b => strLe a.name b.name = true) (sortByName reqs) ∧
      ∃ reqs', from_file (writeContent reqs) = some reqs' ∧ reqs'.Perm reqs := by
  intro reqs hne hwf
  have hsperm : (sortByName reqs).Perm reqs := List.perm_insertionSort _ reqs
  have hswf : ∀ r ∈ sortByName reqs, WellFormed r = true :=
    fun r hr => hwf r (hsperm.mem_iff.mp hr)
  have hsne : (sortByName reqs).map renderChars ≠ [] := by
    intro he
    apply hne
    have h0 : sortByName reqs = [] := by simpa using he
    have hl := hsperm.length_eq
    rw [h0] at hl
    exact List.length_eq_zero.mp hl.symm
  have hnonl : ∀ l ∈ (sortByName reqs).map renderChars, '\n' ∉ l := by
    intro l hl
    obtain ⟨r, hr, he⟩ := List.mem_map.mp hl
    rw [← he]
    exact renderChars_no_newline (hswf r hr)
  have hlines : readlines (writeContent reqs) =
      (sortByName reqs).map (fun r => render r ++ "\n") := by
    unfold readlines writeContent
    have hdata :
        (String.mk (interc ['\n'] ((sortByName reqs).map renderChars) ++ ['\n'])).data =
          interc ['\n'] ((sortByName reqs).map renderChars) ++ ['\n'] := rfl
    rw [hdata, readlinesList_interc _ hsne hnonl, List.map_map, List.map_map]
    rfl
  refine ⟨hlines, ?_, ?_, ?_⟩
  · rw [hlines, List.length_map]
    exact hsperm.length_eq
  · haveI h1 : IsTotal RequirementPlus (fun a b => strLe a.name b.name = true) :=
      ⟨fun a b => strLe_total a.name b.name⟩
    haveI h2 : IsTrans RequirementPlus (fun a b => strLe a.name b.name = true) :=
      ⟨fun _ _ _ hab hbc => strLe_trans hab hbc⟩
    exact List.sorted_insertionSort _ reqs
  · have hparseL := parseAll_map_render hswf
    have hp : ((sortByName reqs).map (fun r => render r ++ "\n")).Perm
        (sortStrings ((sortByName reqs).map (fun r => render r ++ "\n"))) :=
      (List.perm_insertionSort _ _).symm
    obtain ⟨r2, hr2, hperm2⟩ := parseAll_perm hp hparseL
    refine ⟨r2, ?_, hperm2.symm.trans hsperm⟩
    show from_lines (readlines (writeContent reqs)) = some r2
    rw [hlines]
    exact hr2

/-- Witness for C5 amended at a concrete two-record collection. -/
theorem write_sorted_round_trip_witness :
    ∃ reqs', from_file (writeContent
        [⟨"six", [(">=", "0.1.1")]⟩, ⟨"docopt", [(">=", "0.6.2")]⟩]) = some reqs' ∧
      reqs'.Perm [⟨"six", [(">=", "0.1.1")]⟩, ⟨"docopt", [(">=", "0.6.2")]⟩] :=
  (write_sorted_round_trip [⟨"six", [(">=", "0.1.1")]⟩, ⟨"docopt", [(">=", "0.6.2")]⟩]
    (by decide) (by decide)).2.2.2
